import Mathlib

/-!
Verification of the mfile library (a thin C++ wrapper around POSIX file
descriptor I/O) against its natural-language specification.

The definitions below are a shallow embedding of the functions in
`src/include/mfile/mfile.hpp`.  Machine integers (`std::size_t`,
`std::uint64_t`) are modelled as `Nat`, with explicit `% 2^64` where the
C++ code performs wrapping unsigned arithmetic.  Syscall nondeterminism
(a single `::read`/`::write` may transfer fewer bytes than requested) is
modelled by explicit oracles: a function giving, for each syscall index,
the number of bytes the kernel transfers.  Fallible operations return
`Except`-like sum types; C++ exceptions become error constructors.
-/

namespace mfile

/-! ### Saturating transfer loops (`file::read`, `file::write`)

`mfile.hpp` lines 496-531.  The single-transfer primitive `read_once`
(resp. `write_once`) is abstracted by an oracle `f : Nat → Nat → Nat`
where `f i r` is the byte count returned by the i-th primitive call when
asked for `r` bytes (POSIX guarantees `f i r ≤ r`; theorems take that as
a hypothesis).  `read_go f size i acc` mirrors the C++ loop

    while (bytes_read < data.size()) {
      auto result = read_once(data.subspan(bytes_read, data.size() - bytes_read));
      if (result == 0) break;
      bytes_read += result;
    }
    return bytes_read;

and returns the pair (final accumulated count, index after the last
primitive call); starting from `i = 0` the second component is the number
of primitive invocations performed. -/

def read_go (f : Nat → Nat → Nat) (size : Nat) (i acc : Nat) : Nat × Nat :=
  if _h : acc < size then
    if hz : f i (size - acc) = 0 then (acc, i + 1)
    else read_go f size (i + 1) (acc + f i (size - acc))
  else (acc, i)
termination_by size - acc
decreasing_by omega

/-- `file::read(byte_view)`: the accumulated count returned by the
saturating read loop. -/
def read (f : Nat → Nat → Nat) (size : Nat) : Nat :=
  (read_go f size 0 0).1

/-- `file::write(cbyte_view)`, mfile.hpp lines 515-531; identical loop
structure with `write_once` abstracted by the oracle `g`. -/
def write_go (g : Nat → Nat → Nat) (size : Nat) (i acc : Nat) : Nat × Nat :=
  if _h : acc < size then
    if hz : g i (size - acc) = 0 then (acc, i + 1)
    else write_go g size (i + 1) (acc + g i (size - acc))
  else (acc, i)
termination_by size - acc
decreasing_by omega

def write (g : Nat → Nat → Nat) (size : Nat) : Nat :=
  (write_go g size 0 0).1

/-! ### Exact-or-fail wrappers (`file::read_exact`, `file::write_exact`)

`mfile.hpp` lines 533-547.  `end_of_file_error` / `insufficient_space_error`
carry the partial progress count. -/

inductive ExactError where
  | endOfFile (bytes_read : Nat)
  | insufficientSpace (bytes_written : Nat)
deriving DecidableEq

/-- `file::read_exact`: run the saturating loop; if the count differs from
the requested size, throw `end_of_file_error{bytes_read}`. -/
def read_exact (f : Nat → Nat → Nat) (size : Nat) : Except ExactError Unit :=
  let bytes_read := read f size
  if bytes_read ≠ size then .error (.endOfFile bytes_read) else .ok ()

/-- `file::write_exact`: run the saturating loop; if the count differs from
the requested size, throw `insufficient_space_error{bytes_written}`. -/
def write_exact (g : Nat → Nat → Nat) (size : Nat) : Except ExactError Unit :=
  let bytes_written := write g size
  if bytes_written ≠ size then .error (.insufficientSpace bytes_written) else .ok ()

/-! ### Single-transfer primitives (`file::read_once`, `file::write_once`)

`mfile.hpp` lines 605-628.  The C++ code is a do-while loop around one
`::read`/`::write` syscall, retrying while the syscall fails with
`errno == EINTR`:

    ssize_t result = -1;
    do { result = ::read(native(), data.data(), data.size()); }
    while (result == -1 && errno == EINTR);
    if (result == -1) throw mfile_system_error{errno, "read failed"};
    return static_cast<std::size_t>(result);

Each successive syscall outcome (a transfer count, or a failure with an
errno value) is drawn from a trace; `none` means the trace was exhausted
while the loop was still retrying. -/

inductive SysOutcome where
  | ok (n : Nat)
  | err (e : Nat)
deriving DecidableEq

/-- Linux errno value for "interrupted system call". -/
def EINTR : Nat := 4

def read_once_model : List SysOutcome → Option (Except Nat Nat)
  | [] => none
  | .ok n :: _ => some (.ok n)
  | .err e :: rest => if e = EINTR then read_once_model rest else some (.error e)

def write_once_model : List SysOutcome → Option (Except Nat Nat)
  | [] => none
  | .ok n :: _ => some (.ok n)
  | .err e :: rest => if e = EINTR then write_once_model rest else some (.error e)

/-! ### Adaptive whole-file reader (`file::read()`)

`mfile.hpp` lines 558-602.  The reader queries `size()` (metadata size
`m`) and, when `m ≠ 0`, `tell()` (current position `p`), both
`std::uint64_t` values.  `std::size_t` is 64-bit on the target platform
(Linux, the only platform the library supports), so
`std::numeric_limits<std::size_t>::max()` is `2^64 - 1`; a
`std::vector<std::byte>` cannot hold more than `PTRDIFF_MAX = 2^63 - 1`
bytes and `resize` beyond that throws `std::length_error` (the same
exception type the explicit guard throws).  The growth loop is modelled
with explicit fuel: `diverge` means the fuel ran out, never that the
C++ code returned. -/

def SIZE_MAX : Nat := 2 ^ 64 - 1

/-- `std::vector<std::byte>::max_size()` on the target platform
(`PTRDIFF_MAX`); `resize` above this throws `std::length_error`. -/
def VEC_MAX : Nat := 2 ^ 63 - 1

/-- `(std::numeric_limits<std::size_t>::max)() / 3 * 2`, C++ integer
division. -/
def resize_factor_limit : Nat := SIZE_MAX / 3 * 2

def init_buffer_size : Nat := 4096

inductive ReadAllResult where
  | ok (len : Nat)
  | lengthErr
  | diverge
deriving DecidableEq

/-- The `while (true)` growth loop of `file::read()`.  `g k span` is the
total byte count produced by the k-th pass of the saturating loop
(`read(read_span)`) over a remaining span of `span` bytes.

    while (true) {
      auto read_span = byte_view{buffer}.subspan(bytes_read);
      auto res = read(read_span);
      bytes_read += res;
      if (res < read_span.size()) { buffer.resize(bytes_read); break; }
      std::size_t new_size{};
      if (buffer.size() < resize_factor_limit) new_size = buffer.size() / 2 * 3;
      else new_size = std::numeric_limits<std::size_t>::max();
      buffer.resize(new_size);
    }
-/
def grow_loop (g : Nat → Nat → Nat) : Nat → Nat → Nat → Nat → ReadAllResult
  | 0, _, _, _ => .diverge
  | fuel + 1, k, bufsize, bytes_read =>
    let span := bufsize - bytes_read
    let res := g k span
    if res < span then
      if bytes_read + res > VEC_MAX then .lengthErr else .ok (bytes_read + res)
    else
      let new_size := if bufsize < resize_factor_limit then bufsize / 2 * 3 else SIZE_MAX
      if new_size > VEC_MAX then .lengthErr
      else grow_loop g fuel (k + 1) new_size (bytes_read + res)

/-- `file::read()`: `m` is the `size()` metadata value, `p` the `tell()`
position (both `< 2^64`).  When `m ≠ 0` and `p ≠ m` the code computes
`remaining_size = file_size - current_pos` in `std::uint64_t` arithmetic
(wrapping modulo `2^64` when `p > m`), checks it against
`std::numeric_limits<std::size_t>::max()` (throwing `std::length_error`),
and then `buffer.resize(remaining_size)` (throwing `std::length_error`
above `VEC_MAX`). -/
def read_all (g : Nat → Nat → Nat) (fuel m p : Nat) : ReadAllResult :=
  if m = 0 then grow_loop g fuel 0 init_buffer_size 0
  else if p = m then .ok 0
  else
    let remaining := (m + (2 ^ 64 - p)) % 2 ^ 64
    if remaining > SIZE_MAX then .lengthErr
    else if remaining > VEC_MAX then .lengthErr
    else grow_loop g fuel 0 remaining 0

/-- Buffer capacity before the t-th pass of the growth loop when the
metadata size is zero: 4096 initially, then the integer 3/2 growth of
the source (`buffer.size() / 2 * 3`). -/
def growth_cap : Nat → Nat
  | 0 => init_buffer_size
  | t + 1 => growth_cap t / 2 * 3

/-- Total bytes accumulated before the t-th pass of the growth loop
(each earlier pass filled its buffer completely). -/
def growth_bytes : Nat → Nat
  | 0 => 0
  | t + 1 => growth_cap t

/-! ### Byte-level content model

For claims about the bytes delivered (the sized read helper
`file::read(std::size_t)` of lines 550-555, and the positional
round-trip), a file is a length plus a byte-valued function; `byteAt i`
is meaningful for `i < len`.  A single kernel `read` at position `pos`
asked for `req` bytes transfers `min (chunk) (min req (len - pos))`
bytes, where `chunk ≥ 1` is the kernel's (nondeterministic, oracle-given)
per-call transfer bound — POSIX reads on a regular file return 0 only
when no bytes remain. -/

structure PFile where
  len : Nat
  byteAt : Nat → Nat

/-- The saturating loop of `file::read(byte_view)` (lines 496-512) over
a concrete file: the list of bytes the loop deposits into the buffer.
`c k` is the kernel chunk bound for the k-th `read_once` call. -/
def read_loop_seq (c : Nat → Nat) (F : PFile) : Nat → Nat → Nat → List Nat
  | k, pos, r =>
    if _hr : r = 0 then []
    else
      if _ht : min (c k) (min r (F.len - pos)) = 0 then []
      else
        (List.range (min (c k) (min r (F.len - pos)))).map (fun j => F.byteAt (pos + j)) ++
          read_loop_seq c F (k + 1) (pos + min (c k) (min r (F.len - pos)))
            (r - min (c k) (min r (F.len - pos)))
termination_by _ _ r => r
decreasing_by omega

/-- `file::read(std::size_t size)`: allocate a buffer of `size` bytes,
run the saturating loop once over it, trim to the bytes obtained:

    std::vector<std::byte> buffer(size);
    buffer.resize(read(buffer));
    buffer.shrink_to_fit();
    return buffer;

The returned (trimmed) vector is exactly the byte list the loop read. -/
def read_sized (c : Nat → Nat) (F : PFile) (pos size : Nat) : List Nat :=
  read_loop_seq c F 0 pos size

/-- Modelled from the spec: the positional write primitive `pwrite` and
its saturating loop are absent from `src/` (only the tests in
`src/unnamed/part_001` call `file.pwrite`/`file.pread`); spec §4.1-4.2
describe them as the same layered algorithm with an explicit offset that
the loop advances.  `store F o B` is the effect on the file of writing
the bytes `B` at offset `o`: positions `[o, o + |B|)` take the new
bytes, positions beyond the old length that are not written read as
zeros (sparse holes), and the length grows to at least `o + |B|`. -/
def store (F : PFile) (o : Nat) (B : List Nat) : PFile where
  len := max F.len (o + B.length)
  byteAt := fun i =>
    if o ≤ i ∧ i < o + B.length then B.getD (i - o) 0
    else if i < F.len then F.byteAt i else 0

/-- Modelled from the spec: saturating positional write loop (spec §4.2,
positional mode): repeatedly perform a single bounded transfer of a
prefix of the remaining bytes at the current offset, advancing the
offset by each increment, until everything is written or a transfer
returns 0.  `c k ∈ [1, ∞)` is the size the k-th single transfer
accepts (the device never fills in this model). -/
def pwrite_go (c : Nat → Nat) : Nat → PFile → Nat → List Nat → PFile
  | k, F, o, B =>
    if _hB : B.length = 0 then F
    else
      if _ht : min (c k) B.length = 0 then F
      else
        pwrite_go c (k + 1) (store F o (B.take (min (c k) B.length)))
          (o + min (c k) B.length) (B.drop (min (c k) B.length))
termination_by _ _ _ B => B.length
decreasing_by
  simp only [List.length_drop]
  omega

def pwrite (c : Nat → Nat) (F : PFile) (o : Nat) (B : List Nat) : PFile :=
  pwrite_go c 0 F o B

/-- Modelled from the spec: saturating positional read loop (spec §4.2,
positional mode), returning the bytes read; same kernel transfer model
as `read_loop_seq` but with an explicit offset instead of the implicit
cursor. -/
def pread_go (c : Nat → Nat) (F : PFile) : Nat → Nat → Nat → List Nat
  | k, o, r =>
    if _hr : r = 0 then []
    else
      if _ht : min (c k) (min r (F.len - o)) = 0 then []
      else
        (List.range (min (c k) (min r (F.len - o)))).map (fun j => F.byteAt (o + j)) ++
          pread_go c F (k + 1) (o + min (c k) (min r (F.len - o)))
            (r - min (c k) (min r (F.len - o)))
termination_by _ _ r => r
decreasing_by omega

def pread (c : Nat → Nat) (F : PFile) (o r : Nat) : List Nat :=
  pread_go c F 0 o r

/-! ### Open flags builder (`open_flags`)

`mfile.hpp` lines 380-452.  Flag bitmasks are `std::uint32_t`; the
numeric values are the Linux (x86-64) ones from `<fcntl.h>`.  The
constructor always ORs in `default_flags = O_CLOEXEC`; `set` ORs a flag
in, `unset` ANDs with the 32-bit complement, `has_flag f` tests
`(flags_ & f) == f`. -/

def O_RDONLY : Nat := 0
def O_WRONLY : Nat := 1
def O_RDWR : Nat := 2
def O_CREAT : Nat := 64
def O_EXCL : Nat := 128
def O_TRUNC : Nat := 512
def O_APPEND : Nat := 1024
def O_CLOEXEC : Nat := 524288
def O_DIRECT : Nat := 16384
def O_SYNC : Nat := 1052672
def O_NOATIME : Nat := 262144
def O_TMPFILE : Nat := 4259840

/-- The eight `basic_mode` enum values. -/
def basic_modes : List Nat :=
  [O_RDONLY, O_RDWR,
   O_WRONLY ||| O_CREAT ||| O_TRUNC, O_RDWR ||| O_CREAT ||| O_TRUNC,
   O_WRONLY ||| O_CREAT ||| O_EXCL, O_RDWR ||| O_CREAT ||| O_EXCL,
   O_WRONLY ||| O_CREAT ||| O_APPEND, O_RDWR ||| O_CREAT ||| O_APPEND]

/-- `open_flags(basic_mode)`: `flags_ = mode | default_flags`. -/
def flags_ofMode (m : Nat) : Nat := m ||| O_CLOEXEC

/-- `open_flags::set(flag)`: `flags_ |= flag`. -/
def flags_set (f flag : Nat) : Nat := f ||| flag

/-- `open_flags::unset(flag)`: `flags_ &= ~flag` in 32-bit arithmetic. -/
def flags_unset (f flag : Nat) : Nat := f &&& ((2 ^ 32 - 1) ^^^ flag)

/-- `open_flags::has_flag(flag)`: `(flags_ & flag) == flag`. -/
def has_flag (f flag : Nat) : Bool := f &&& flag = flag

/-- Flag values reachable through the builder API without ever passing a
mask containing the `O_CLOEXEC` bit to `unset` (the named modifiers
`direct`, `sync`, `noatime`, `tmpfile` are `set` with the corresponding
`O_*` constant). -/
inductive ReachableNC : Nat → Prop
  | base (m : Nat) (hm : m ∈ basic_modes) : ReachableNC (flags_ofMode m)
  | set (f flag : Nat) : ReachableNC f → ReachableNC (flags_set f flag)
  | unset (f flag : Nat) (hflag : flag &&& O_CLOEXEC = 0) :
      ReachableNC f → ReachableNC (flags_unset f flag)

/-! ### Helper lemmas about the saturating loops -/

/-- Core invariant of the saturating read loop: starting from any state
`acc ≤ size`, the final count stays `≤ size`, and it either equals `size`
or the last primitive call (index `.2 - 1`) returned exactly 0 on the
remaining suffix. -/
theorem read_go_spec (f : Nat → Nat → Nat) (size : Nat)
    (hf : ∀ i r, f i r ≤ r) :
    ∀ n i acc, size - acc ≤ n → acc ≤ size →
      (read_go f size i acc).1 ≤ size ∧
      ((read_go f size i acc).1 = size ∨
        ((read_go f size i acc).1 < size ∧
          f ((read_go f size i acc).2 - 1) (size - (read_go f size i acc).1) = 0)) := by
  intro n
  induction n with
  | zero =>
    intro i acc hn hacc
    have hsz : acc = size := by omega
    unfold read_go
    simp [hsz]
  | succ n ih =>
    intro i acc hn hacc
    unfold read_go
    by_cases h : acc < size
    · rw [dif_pos h]
      by_cases hz : f i (size - acc) = 0
      · rw [dif_pos hz]
        refine ⟨by omega, Or.inr ⟨by simpa using h, ?_⟩⟩
        simpa using hz
      · rw [dif_neg hz]
        have hle := hf i (size - acc)
        exact ih (i + 1) (acc + f i (size - acc)) (by omega) (by omega)
    · rw [dif_neg h]
      have hsz : acc = size := by omega
      simp [hsz]

theorem write_go_spec (g : Nat → Nat → Nat) (size : Nat)
    (hg : ∀ i r, g i r ≤ r) :
    ∀ n i acc, size - acc ≤ n → acc ≤ size →
      (write_go g size i acc).1 ≤ size ∧
      ((write_go g size i acc).1 = size ∨
        ((write_go g size i acc).1 < size ∧
          g ((write_go g size i acc).2 - 1) (size - (write_go g size i acc).1) = 0)) := by
  intro n
  induction n with
  | zero =>
    intro i acc hn hacc
    have hsz : acc = size := by omega
    unfold write_go
    simp [hsz]
  | succ n ih =>
    intro i acc hn hacc
    unfold write_go
    by_cases h : acc < size
    · rw [dif_pos h]
      by_cases hz : g i (size - acc) = 0
      · rw [dif_pos hz]
        refine ⟨by omega, Or.inr ⟨by simpa using h, ?_⟩⟩
        simpa using hz
      · rw [dif_neg hz]
        have hle := hg i (size - acc)
        exact ih (i + 1) (acc + g i (size - acc)) (by omega) (by omega)
    · rw [dif_neg h]
      have hsz : acc = size := by omega
      simp [hsz]

/-! ### Helper lemmas about the adaptive reader's growth trajectory -/

theorem growth_cap_ge : ∀ t, 4096 ≤ growth_cap t := by
  intro t
  induction t with
  | zero => simp [growth_cap, init_buffer_size]
  | succ t ih =>
    unfold growth_cap
    omega

theorem growth_cap_lt_succ (t : Nat) : growth_cap t < growth_cap (t + 1) := by
  have h := growth_cap_ge t
  show growth_cap t < growth_cap t / 2 * 3
  omega

theorem growth_cap_mono {s t : Nat} (h : s ≤ t) : growth_cap s ≤ growth_cap t := by
  induction t with
  | zero => simp [Nat.le_zero.mp h]
  | succ t ih =>
    rcases Nat.lt_or_ge s (t + 1) with hlt | hge
    · exact le_trans (ih (by omega)) (le_of_lt (growth_cap_lt_succ t))
    · have : s = t + 1 := by omega
      simp [this]

theorem growth_bytes_le (t : Nat) : growth_bytes t ≤ growth_cap t := by
  cases t with
  | zero => simp [growth_bytes]
  | succ t =>
    show growth_cap t ≤ growth_cap (t + 1)
    exact le_of_lt (growth_cap_lt_succ t)

theorem vec_max_lt_resize_factor_limit : VEC_MAX < resize_factor_limit := by
  norm_num [VEC_MAX, resize_factor_limit, SIZE_MAX]

/-- Running the growth loop from the state before pass `s` (capacity
`growth_cap s`, accumulated bytes `growth_bytes s`): if passes
`s, …, s + d - 1` each fill their span completely and pass `s + d` is
the first partial one, the loop stops there and returns the buffer
trimmed to the total byte count. -/
theorem grow_loop_run (g : Nat → Nat → Nat) :
    ∀ d s fuel, d < fuel →
      (∀ j, s ≤ j → j < s + d →
        g j (growth_cap j - growth_bytes j) = growth_cap j - growth_bytes j) →
      g (s + d) (growth_cap (s + d) - growth_bytes (s + d)) <
        growth_cap (s + d) - growth_bytes (s + d) →
      growth_cap (s + d) ≤ VEC_MAX →
      grow_loop g fuel s (growth_cap s) (growth_bytes s) =
        .ok (growth_bytes (s + d) +
          g (s + d) (growth_cap (s + d) - growth_bytes (s + d))) := by
  intro d
  induction d with
  | zero =>
    intro s fuel hfuel hfull hpart hcap
    obtain ⟨fuel, rfl⟩ : ∃ fuelp, fuel = fuelp + 1 := ⟨fuel - 1, by omega⟩
    rw [grow_loop]
    simp only [Nat.add_zero] at *
    rw [if_pos hpart]
    rw [if_neg (by have := growth_bytes_le s; omega)]
  | succ d ih =>
    intro s fuel hfuel hfull hpart hcap
    obtain ⟨fuel, rfl⟩ : ∃ fuelp, fuel = fuelp + 1 := ⟨fuel - 1, by omega⟩
    rw [grow_loop]
    have hfs : g s (growth_cap s - growth_bytes s) = growth_cap s - growth_bytes s :=
      hfull s (le_refl s) (by omega)
    rw [if_neg (by omega)]
    have hmono : growth_cap (s + 1) ≤ growth_cap (s + d + 1) :=
      growth_cap_mono (by omega)
    have hcap1 : growth_cap (s + 1) ≤ VEC_MAX := by
      have : s + d + 1 = s + (d + 1) := by omega
      rw [this] at hmono
      omega
    have hlim : growth_cap s < resize_factor_limit := by
      have h1 := growth_cap_lt_succ s
      have h2 := vec_max_lt_resize_factor_limit
      omega
    have hcapstep : growth_cap s / 2 * 3 = growth_cap (s + 1) := rfl
    rw [if_pos hlim, if_neg (by rw [hcapstep]; omega)]
    have hbytes : growth_bytes s + g s (growth_cap s - growth_bytes s) =
        growth_bytes (s + 1) := by
      have := growth_bytes_le s
      show _ = growth_cap s
      omega
    rw [hbytes, hcapstep]
    have heq : s + 1 + d = s + (d + 1) := by omega
    have := ih (s + 1) fuel (by omega)
      (fun j hj1 hj2 => hfull j (by omega) (by omega))
      (by rw [heq]; exact hpart) (by rw [heq]; exact hcap)
    rw [heq] at this
    exact this

/-! ### Helper lemmas about the byte-level content model -/

theorem map_range_split (a b : Nat) (f : Nat → Nat) :
    (List.range (a + b)).map f =
      (List.range a).map f ++ (List.range b).map (fun j => f (a + j)) := by
  rw [List.range_add, List.map_append, List.map_map]
  rfl

/-- The saturating read loop over a concrete file delivers exactly the
`min r (F.len - pos)` bytes of the file starting at `pos`, for any
kernel chunk oracle that transfers at least one byte per call whenever
bytes remain. -/
theorem read_loop_seq_spec (c : Nat → Nat) (F : PFile) (hc : ∀ j, 1 ≤ c j) :
    ∀ r k pos, pos ≤ F.len →
      read_loop_seq c F k pos r =
        (List.range (min r (F.len - pos))).map (fun j => F.byteAt (pos + j)) := by
  intro r
  induction r using Nat.strong_induction_on with
  | _ r ih =>
    intro k pos hpos
    rw [read_loop_seq]
    by_cases hr : r = 0
    · rw [dif_pos hr]
      simp [hr]
    · rw [dif_neg hr]
      by_cases hav : F.len - pos = 0
      · rw [dif_pos (by omega)]
        simp [hav]
      · have hck := hc k
        have ht : ¬ (min (c k) (min r (F.len - pos)) = 0) := by omega
        rw [dif_neg ht]
        have h1 : min (c k) (min r (F.len - pos)) ≤ r := by omega
        have h2 : min (c k) (min r (F.len - pos)) ≤ F.len - pos := by omega
        rw [ih (r - min (c k) (min r (F.len - pos))) (by omega) (k + 1)
          (pos + min (c k) (min r (F.len - pos))) (by omega)]
        have hmin : min (r - min (c k) (min r (F.len - pos)))
            (F.len - (pos + min (c k) (min r (F.len - pos)))) =
            min r (F.len - pos) - min (c k) (min r (F.len - pos)) := by omega
        rw [hmin]
        conv_rhs => rw [show min r (F.len - pos) =
          min (c k) (min r (F.len - pos)) +
            (min r (F.len - pos) - min (c k) (min r (F.len - pos))) from by omega]
        rw [map_range_split]
        simp [Nat.add_assoc]

theorem pread_go_spec (c : Nat → Nat) (F : PFile) (hc : ∀ j, 1 ≤ c j) :
    ∀ r k o, o ≤ F.len →
      pread_go c F k o r =
        (List.range (min r (F.len - o))).map (fun j => F.byteAt (o + j)) := by
  intro r
  induction r using Nat.strong_induction_on with
  | _ r ih =>
    intro k o hpos
    rw [pread_go]
    by_cases hr : r = 0
    · rw [dif_pos hr]
      simp [hr]
    · rw [dif_neg hr]
      by_cases hav : F.len - o = 0
      · rw [dif_pos (by omega)]
        simp [hav]
      · have hck := hc k
        have ht : ¬ (min (c k) (min r (F.len - o)) = 0) := by omega
        rw [dif_neg ht]
        have h1 : min (c k) (min r (F.len - o)) ≤ r := by omega
        have h2 : min (c k) (min r (F.len - o)) ≤ F.len - o := by omega
        rw [ih (r - min (c k) (min r (F.len - o))) (by omega) (k + 1)
          (o + min (c k) (min r (F.len - o))) (by omega)]
        have hmin : min (r - min (c k) (min r (F.len - o)))
            (F.len - (o + min (c k) (min r (F.len - o)))) =
            min r (F.len - o) - min (c k) (min r (F.len - o)) := by omega
        rw [hmin]
        conv_rhs => rw [show min r (F.len - o) =
          min (c k) (min r (F.len - o)) +
            (min r (F.len - o) - min (c k) (min r (F.len - o))) from by omega]
        rw [map_range_split]
        simp [Nat.add_assoc]

theorem store_byteAt_lt (F : PFile) (o : Nat) (B : List Nat) (i : Nat) (h : i < o)
    (hlen : i < F.len) :
    (store F o B).byteAt i = F.byteAt i := by
  simp only [store]
  rw [if_neg (by omega), if_pos hlen]

theorem store_byteAt_in (F : PFile) (o : Nat) (B : List Nat) (i : Nat) (h : i < B.length) :
    (store F o B).byteAt (o + i) = B.getD i 0 := by
  simp only [store]
  rw [if_pos ⟨by omega, by omega⟩]
  simp

theorem store_len_ge (F : PFile) (o : Nat) (B : List Nat) :
    o + B.length ≤ (store F o B).len :=
  Nat.le_max_right _ _

theorem store_len_ge_self (F : PFile) (o : Nat) (B : List Nat) :
    F.len ≤ (store F o B).len :=
  Nat.le_max_left _ _

/-- Effect of the saturating positional write loop: positions below the
target offset are untouched, the file never shrinks, every written byte
is readable back at its offset, and the file covers the written range. -/
theorem pwrite_go_spec (c : Nat → Nat) (hc : ∀ j, 1 ≤ c j) :
    ∀ (B : List Nat) (k : Nat) (F : PFile) (o : Nat),
      (∀ i, i < o → i < F.len → (pwrite_go c k F o B).byteAt i = F.byteAt i) ∧
      F.len ≤ (pwrite_go c k F o B).len ∧
      (∀ i, i < B.length → (pwrite_go c k F o B).byteAt (o + i) = B.getD i 0) ∧
      (B.length ≠ 0 → o + B.length ≤ (pwrite_go c k F o B).len) := by
  suffices H : ∀ (n : Nat) (B : List Nat), B.length ≤ n → ∀ (k : Nat) (F : PFile) (o : Nat),
      (∀ i, i < o → i < F.len → (pwrite_go c k F o B).byteAt i = F.byteAt i) ∧
      F.len ≤ (pwrite_go c k F o B).len ∧
      (∀ i, i < B.length → (pwrite_go c k F o B).byteAt (o + i) = B.getD i 0) ∧
      (B.length ≠ 0 → o + B.length ≤ (pwrite_go c k F o B).len) by
    exact fun B => H B.length B le_rfl
  intro n
  induction n with
  | zero =>
    intro B hB k F o
    have hB0 : B.length = 0 := by omega
    rw [pwrite_go, dif_pos hB0]
    exact ⟨fun i _ _ => rfl, le_rfl, fun i hi => by omega, fun h => absurd hB0 h⟩
  | succ n ihn =>
    intro B hB k F o
    rw [pwrite_go]
    by_cases hB0 : B.length = 0
    · rw [dif_pos hB0]
      exact ⟨fun i _ _ => rfl, le_rfl, fun i hi => by omega, fun h => absurd hB0 h⟩
    · rw [dif_neg hB0]
      have hck := hc k
      have ht : ¬ (min (c k) B.length = 0) := by omega
      rw [dif_neg ht]
      have htle : min (c k) B.length ≤ B.length := Nat.min_le_right _ _
      have ht1 : 1 ≤ min (c k) B.length := by omega
      have hdrop : (B.drop (min (c k) B.length)).length ≤ n := by
        simp only [List.length_drop]
        omega
      have htake : (B.take (min (c k) B.length)).length = min (c k) B.length := by
        simp [htle]
      have hstlen : o + min (c k) B.length ≤ (store F o (B.take (min (c k) B.length))).len := by
        have := store_len_ge F o (B.take (min (c k) B.length))
        omega
      obtain ⟨ih1, ih2, ih3, ih4⟩ :=
        ihn (B.drop (min (c k) B.length)) hdrop (k + 1)
          (store F o (B.take (min (c k) B.length))) (o + min (c k) B.length)
      refine ⟨?_, ?_, ?_, ?_⟩
      · intro i hi hilen
        have hstorelen : i < (store F o (B.take (min (c k) B.length))).len := by
          have := store_len_ge_self F o (B.take (min (c k) B.length))
          omega
        rw [ih1 i (by omega) hstorelen, store_byteAt_lt F o _ i hi hilen]
      · exact le_trans (store_len_ge_self F o _) ih2
      · intro i hi
        by_cases hit : i < min (c k) B.length
        · rw [ih1 (o + i) (by omega) (by omega),
            store_byteAt_in F o _ i (by omega)]
          simp [List.getD_eq_getElem?_getD, List.getElem?_take, hit,
            List.getElem?_eq_getElem hi]
        · have hj : i - min (c k) B.length < (B.drop (min (c k) B.length)).length := by
            simp only [List.length_drop]
            omega
          have h3 := ih3 (i - min (c k) B.length) hj
          rw [show o + min (c k) B.length + (i - min (c k) B.length) = o + i from by
            omega] at h3
          rw [h3]
          simp only [List.getD_eq_getElem?_getD, List.getElem?_drop]
          rw [show min (c k) B.length + (i - min (c k) B.length) = i from by omega]
      · intro _
        by_cases hrest : (B.drop (min (c k) B.length)).length = 0
        · have hfull : o + B.length ≤ (store F o (B.take (min (c k) B.length))).len := by
            have := store_len_ge F o (B.take (min (c k) B.length))
            simp only [List.length_drop] at hrest
            omega
          exact le_trans hfull ih2
        · have h4 := ih4 hrest
          simp only [List.length_drop] at h4
          omega

/-! ### Helper lemma about the flags builder -/

/-- Bit 19 (`O_CLOEXEC = 2^19`) stays set through any builder sequence
that never passes an `O_CLOEXEC`-containing mask to `unset`. -/
theorem reachableNC_testBit {f : Nat} (h : ReachableNC f) : f.testBit 19 = true := by
  induction h with
  | base m hm =>
    simp only [flags_ofMode, Nat.testBit_lor]
    rw [show O_CLOEXEC.testBit 19 = true from by decide]
    simp
  | set f flag hf ih =>
    simp [flags_set, Nat.testBit_lor, ih]
  | unset f flag hflag hf ih =>
    have hb : flag.testBit 19 = false := by
      have h0 := congrArg (fun x => Nat.testBit x 19) hflag
      simp only [Nat.testBit_land] at h0
      rw [show O_CLOEXEC.testBit 19 = true from by decide] at h0
      simpa using h0
    simp only [flags_unset, Nat.testBit_land, Nat.testBit_xor, ih, hb]
    rw [show (2 ^ 32 - 1 : Nat).testBit 19 = true from by decide]
    rfl

end mfile

/-! ## Claim theorems -/

/-- C1: for every oracle pair bounding the single-transfer primitives
(`f i r ≤ r`, as POSIX guarantees), the saturating loops `file::read` and
`file::write` return an accumulated count that never exceeds the buffer
size, and the count either equals the requested size, or is strictly
smaller and the final primitive invocation returned exactly 0 on the
remaining untransferred suffix (partial count returned, no error raised:
the loop result is a plain count, not an error). -/
theorem mfile.read_write_saturating_spec
    (f g : Nat → Nat → Nat) (size : Nat)
    (hf : ∀ i r, f i r ≤ r) (hg : ∀ i r, g i r ≤ r) :
    (mfile.read f size ≤ size ∧
      (mfile.read f size = size ∨
        (mfile.read f size < size ∧
          f ((mfile.read_go f size 0 0).2 - 1) (size - mfile.read f size) = 0))) ∧
    (mfile.write g size ≤ size ∧
      (mfile.write g size = size ∨
        (mfile.write g size < size ∧
          g ((mfile.write_go g size 0 0).2 - 1) (size - mfile.write g size) = 0))) := by
  constructor
  · exact mfile.read_go_spec f size hf size 0 0 (by omega) (by omega)
  · exact mfile.write_go_spec g size hg size 0 0 (by omega) (by omega)

/-- Witness for C1 at a concrete input: the oracle transfers at most 2
bytes per call; reading and writing 5 bytes saturate. -/
theorem mfile.read_write_saturating_spec_witness :
    (mfile.read (fun _ r => min 2 r) 5 ≤ 5 ∧
      (mfile.read (fun _ r => min 2 r) 5 = 5 ∨
        (mfile.read (fun _ r => min 2 r) 5 < 5 ∧
          (fun (_ r : Nat) => min 2 r) ((mfile.read_go (fun _ r => min 2 r) 5 0 0).2 - 1)
            (5 - mfile.read (fun _ r => min 2 r) 5) = 0))) ∧
    (mfile.write (fun _ r => min 2 r) 5 ≤ 5 ∧
      (mfile.write (fun _ r => min 2 r) 5 = 5 ∨
        (mfile.write (fun _ r => min 2 r) 5 < 5 ∧
          (fun (_ r : Nat) => min 2 r) ((mfile.write_go (fun _ r => min 2 r) 5 0 0).2 - 1)
            (5 - mfile.write (fun _ r => min 2 r) 5) = 0))) := by
  have hb : ∀ i r : Nat, (fun (_ r : Nat) => min 2 r) i r ≤ r := by
    intro i r
    exact Nat.min_le_right 2 r
  exact mfile.read_write_saturating_spec (fun _ r => min 2 r) (fun _ r => min 2 r) 5 hb hb

/-- C2: `file::read_exact` fails with an end-of-file error (and
`file::write_exact` with an insufficient-space error) if and only if the
underlying saturating loop transferred strictly fewer bytes than the
buffer size; the error's partial-progress payload equals exactly the
count the plain `read`/`write` call returns for the same request, and is
strictly less than the requested size; on full transfer the wrapper
returns `()` with no error. -/
theorem mfile.read_write_exact_spec
    (f g : Nat → Nat → Nat) (size : Nat)
    (hf : ∀ i r, f i r ≤ r) (hg : ∀ i r, g i r ≤ r) :
    (((∃ n, mfile.read_exact f size = .error (.endOfFile n)) ↔ mfile.read f size < size) ∧
      (∀ n, mfile.read_exact f size = .error (.endOfFile n) →
        n = mfile.read f size ∧ n < size) ∧
      (mfile.read_exact f size = .ok () ↔ mfile.read f size = size)) ∧
    (((∃ n, mfile.write_exact g size = .error (.insufficientSpace n)) ↔
        mfile.write g size < size) ∧
      (∀ n, mfile.write_exact g size = .error (.insufficientSpace n) →
        n = mfile.write g size ∧ n < size) ∧
      (mfile.write_exact g size = .ok () ↔ mfile.write g size = size)) := by
  have hrle : mfile.read f size ≤ size :=
    (mfile.read_go_spec f size hf size 0 0 (by omega) (by omega)).1
  have hwle : mfile.write g size ≤ size :=
    (mfile.write_go_spec g size hg size 0 0 (by omega) (by omega)).1
  constructor
  · by_cases hcase : mfile.read f size = size
    · simp [mfile.read_exact, hcase]
    · have hlt : mfile.read f size < size := by omega
      refine ⟨⟨fun _ => hlt, fun _ => ⟨mfile.read f size, by simp [mfile.read_exact, hcase]⟩⟩,
        ?_, by simp [mfile.read_exact, hcase]⟩
      intro n hn
      simp only [mfile.read_exact, hcase, if_pos, ne_eq, not_false_iff,
        if_true, Except.error.injEq, mfile.ExactError.endOfFile.injEq] at hn
      omega
  · by_cases hcase : mfile.write g size = size
    · simp [mfile.write_exact, hcase]
    · have hlt : mfile.write g size < size := by omega
      refine ⟨⟨fun _ => hlt, fun _ => ⟨mfile.write g size, by simp [mfile.write_exact, hcase]⟩⟩,
        ?_, by simp [mfile.write_exact, hcase]⟩
      intro n hn
      simp only [mfile.write_exact, hcase, if_pos, ne_eq, not_false_iff,
        if_true, Except.error.injEq, mfile.ExactError.insufficientSpace.injEq] at hn
      omega

/-- Witness for C2 at a concrete input: an oracle that transfers at most
3 bytes and then hits EOF (returns 0 from the second call on), asked for
10 bytes: the loop yields 3 and both exact wrappers fail with partial
count 3. -/
theorem mfile.read_write_exact_spec_witness :
    (((∃ n, mfile.read_exact (fun i r => if i = 0 then min 3 r else 0) 10 =
          .error (.endOfFile n)) ↔
        mfile.read (fun i r => if i = 0 then min 3 r else 0) 10 < 10) ∧
      (∀ n, mfile.read_exact (fun i r => if i = 0 then min 3 r else 0) 10 =
          .error (.endOfFile n) →
        n = mfile.read (fun i r => if i = 0 then min 3 r else 0) 10 ∧ n < 10) ∧
      (mfile.read_exact (fun i r => if i = 0 then min 3 r else 0) 10 = .ok () ↔
        mfile.read (fun i r => if i = 0 then min 3 r else 0) 10 = 10)) ∧
    (((∃ n, mfile.write_exact (fun i r => if i = 0 then min 3 r else 0) 10 =
          .error (.insufficientSpace n)) ↔
        mfile.write (fun i r => if i = 0 then min 3 r else 0) 10 < 10) ∧
      (∀ n, mfile.write_exact (fun i r => if i = 0 then min 3 r else 0) 10 =
          .error (.insufficientSpace n) →
        n = mfile.write (fun i r => if i = 0 then min 3 r else 0) 10 ∧ n < 10) ∧
      (mfile.write_exact (fun i r => if i = 0 then min 3 r else 0) 10 = .ok () ↔
        mfile.write (fun i r => if i = 0 then min 3 r else 0) 10 = 10)) := by
  have hb : ∀ i r : Nat, (fun (i r : Nat) => if i = 0 then min 3 r else 0) i r ≤ r := by
    intro i r
    by_cases hi : i = 0 <;> simp [hi]
  exact mfile.read_write_exact_spec (fun i r => if i = 0 then min 3 r else 0)
    (fun i r => if i = 0 then min 3 r else 0) 10 hb hb

/-- C10: a zero-length buffer makes the saturating loops return 0
without invoking the single-transfer primitive (the second component of
`read_go`/`write_go`, the number of primitive calls, is 0), and the
exact wrappers consequently succeed silently. -/
theorem mfile.zero_length_spec (f g : Nat → Nat → Nat) :
    mfile.read_go f 0 0 0 = (0, 0) ∧ mfile.write_go g 0 0 0 = (0, 0) ∧
    mfile.read_exact f 0 = .ok () ∧ mfile.write_exact g 0 = .ok () := by
  refine ⟨?_, ?_, ?_, ?_⟩ <;>
    simp [mfile.read_go, mfile.write_go, mfile.read_exact, mfile.write_exact,
      mfile.read, mfile.write]

/-- C7: the single-transfer primitives retry the syscall transparently
while it fails with `EINTR`; the first non-`EINTR` outcome decides the
result: a success returns the actual (possibly short) transfer count,
any other failure surfaces as a system error carrying the raw errno
value. -/
theorem mfile.read_write_once_retry_spec
    (k n e : Nat) (rest : List mfile.SysOutcome) (he : e ≠ mfile.EINTR) :
    mfile.read_once_model (List.replicate k (.err mfile.EINTR) ++ .ok n :: rest) =
      some (.ok n) ∧
    mfile.read_once_model (List.replicate k (.err mfile.EINTR) ++ .err e :: rest) =
      some (.error e) ∧
    mfile.write_once_model (List.replicate k (.err mfile.EINTR) ++ .ok n :: rest) =
      some (.ok n) ∧
    mfile.write_once_model (List.replicate k (.err mfile.EINTR) ++ .err e :: rest) =
      some (.error e) := by
  induction k with
  | zero =>
    simp [mfile.read_once_model, mfile.write_once_model, he]
  | succ k ih =>
    simpa [List.replicate_succ, mfile.read_once_model, mfile.write_once_model] using ih

/-- Witness for C7 at a concrete input: two `EINTR` failures followed by
a success of 7 bytes (resp. a hard failure with errno 13). -/
theorem mfile.read_write_once_retry_spec_witness :
    mfile.read_once_model (List.replicate 2 (.err mfile.EINTR) ++ .ok 7 :: []) =
      some (.ok 7) ∧
    mfile.read_once_model (List.replicate 2 (.err mfile.EINTR) ++ .err 13 :: []) =
      some (.error 13) ∧
    mfile.write_once_model (List.replicate 2 (.err mfile.EINTR) ++ .ok 7 :: []) =
      some (.ok 7) ∧
    mfile.write_once_model (List.replicate 2 (.err mfile.EINTR) ++ .err 13 :: []) =
      some (.error 13) :=
  mfile.read_write_once_retry_spec 2 7 13 [] (by decide)

/-- C3: when the metadata size is zero, `file::read()` starts from a
buffer of 4096 bytes; each pass of the saturating loop that completely
fills the remaining capacity grows the capacity by the integer factor
3/2 of the source (`buffer.size() / 2 * 3`, exactly 1.5x whenever the
capacity is even, as it is for every capacity actually reached from
4096 until far beyond practical sizes) and the loop repeats; the first
pass returning fewer bytes than the remaining capacity ends the loop,
and the returned buffer is trimmed to exactly the total bytes read. -/
theorem mfile.read_all_growth_spec (g : Nat → Nat → Nat) (fuel t p : Nat)
    (hfull : ∀ j, j < t →
      g j (mfile.growth_cap j - mfile.growth_bytes j) =
        mfile.growth_cap j - mfile.growth_bytes j)
    (hpart : g t (mfile.growth_cap t - mfile.growth_bytes t) <
      mfile.growth_cap t - mfile.growth_bytes t)
    (hcap : mfile.growth_cap t ≤ mfile.VEC_MAX)
    (hfuel : t < fuel) :
    mfile.growth_cap 0 = 4096 ∧
    (∀ j, mfile.growth_cap (j + 1) = mfile.growth_cap j / 2 * 3) ∧
    (∀ j, mfile.growth_cap j % 2 = 0 →
      2 * mfile.growth_cap (j + 1) = 3 * mfile.growth_cap j) ∧
    mfile.read_all g fuel 0 p =
      .ok (mfile.growth_bytes t + g t (mfile.growth_cap t - mfile.growth_bytes t)) := by
  refine ⟨rfl, fun j => rfl, fun j hj => ?_, ?_⟩
  · show 2 * (mfile.growth_cap j / 2 * 3) = 3 * mfile.growth_cap j
    omega
  · show mfile.grow_loop g fuel 0 mfile.init_buffer_size 0 = _
    have h0 : mfile.init_buffer_size = mfile.growth_cap 0 := rfl
    have hb0 : (0 : Nat) = mfile.growth_bytes 0 := rfl
    rw [h0, hb0]
    have := mfile.grow_loop_run g t 0 fuel hfuel
      (fun j hj1 hj2 => hfull j (by omega))
      (by simpa using hpart) (by simpa using hcap)
    simpa using this

/-- Witness for C3 at a concrete input: the first pass fills all
4096 bytes, the second pass returns 5 of the 2048 new bytes, so the
result is a buffer of 4101 bytes. -/
theorem mfile.read_all_growth_spec_witness :
    mfile.read_all (fun j r => if j = 0 then r else 5) 2 0 0 = .ok 4101 := by
  have h := mfile.read_all_growth_spec (fun j r => if j = 0 then r else 5) 2 1 0
    (by decide) (by decide) (by decide) (by decide)
  have h4 := h.2.2.2
  norm_num [mfile.growth_cap, mfile.growth_bytes, mfile.init_buffer_size] at h4
  exact h4

/-- C4 (code bug): the claim says a position at *or past* the nonzero
metadata size makes `file::read()` return an empty result with no
syscall.  The code only handles exact equality (`current_pos ==
file_size`); for a position strictly past the size the `std::uint64_t`
subtraction `file_size - current_pos` wraps around, and (here: size 1,
position 2, remaining wraps to `2^64 - 1`) the call throws
`std::length_error` instead of returning an empty buffer.  The oracle
`fun _ _ => 0` is irrelevant: no read pass is performed. -/
theorem mfile.read_all_past_size_bug :
    mfile.read_all (fun _ _ => 0) 1 1 2 = .lengthErr ∧
    mfile.read_all (fun _ _ => 0) 1 1 2 ≠ .ok 0 := by
  constructor
  · decide
  · decide

/-- C5: the overflow guards of `file::read()`.  (a) If the remaining
span (metadata size minus position, with position below size) exceeds
the largest size a byte buffer can represent on the platform, the call
fails with a length error instead of wrapping or truncating.  (b) If a
pass fills its span completely and the next grown capacity
(`buffer.size() / 2 * 3`, clamped to `SIZE_MAX` once the size passes
`resize_factor_limit`) exceeds that maximum, the growth loop fails with
a length error. -/
theorem mfile.read_all_overflow_guard
    (g : Nat → Nat → Nat) (fuel m p k bufsize bytes_read : Nat) :
    (m ≠ 0 → p < m → m < 2 ^ 64 → mfile.VEC_MAX < m - p →
      mfile.read_all g fuel m p = .lengthErr) ∧
    (g k (bufsize - bytes_read) = bufsize - bytes_read →
      mfile.VEC_MAX <
        (if bufsize < mfile.resize_factor_limit then bufsize / 2 * 3 else mfile.SIZE_MAX) →
      mfile.grow_loop g (fuel + 1) k bufsize bytes_read = .lengthErr) := by
  constructor
  · intro hm hpm hm64 hbig
    rw [mfile.read_all, if_neg hm, if_neg (by omega)]
    have hrem : (m + (2 ^ 64 - p)) % 2 ^ 64 = m - p := by omega
    rw [hrem]
    have hsz : ¬ (m - p > mfile.SIZE_MAX) := by
      simp only [mfile.SIZE_MAX]
      omega
    rw [if_neg hsz, if_pos (by omega)]
  · intro hfull hover
    rw [mfile.grow_loop]
    rw [if_neg (by omega), if_pos hover]

/-- Witness for C5 at concrete inputs: (a) metadata size `2^64 - 1` at
position 0 (remaining span `2^64 - 1 > 2^63 - 1`) fails with a length
error before any pass; (b) a completely filled buffer of capacity
`resize_factor_limit` makes the next capacity `SIZE_MAX`, which cannot
be allocated, so the loop fails with a length error. -/
theorem mfile.read_all_overflow_guard_witness :
    mfile.read_all (fun _ r => r) 1 (2 ^ 64 - 1) 0 = .lengthErr ∧
    mfile.grow_loop (fun _ r => r) 2 0 mfile.resize_factor_limit 0 = .lengthErr := by
  have h := mfile.read_all_overflow_guard (fun _ r => r) 1 (2 ^ 64 - 1) 0 0
    mfile.resize_factor_limit 0
  exact ⟨h.1 (by decide) (by decide) (by decide) (by decide),
    h.2 rfl (by decide)⟩

/-- C6: `file::read(std::size_t size)` allocates a buffer of exactly
`size` bytes, runs the saturating loop once over it, and returns the
buffer trimmed to the bytes actually obtained — the `min size avail`
bytes of the file starting at the current position; a result shorter
than `size` (EOF before the buffer filled) is returned as a shorter
buffer, not an error (the model has no failure outcome). -/
theorem mfile.read_sized_spec (c : Nat → Nat) (F : mfile.PFile) (pos n : Nat)
    (hc : ∀ j, 1 ≤ c j) (hpos : pos ≤ F.len) :
    mfile.read_sized c F pos n =
      (List.range (min n (F.len - pos))).map (fun j => F.byteAt (pos + j)) ∧
    (mfile.read_sized c F pos n).length = min n (F.len - pos) ∧
    (mfile.read_sized c F pos n).length ≤ n := by
  have h := mfile.read_loop_seq_spec c F hc n 0 pos hpos
  refine ⟨h, ?_, ?_⟩ <;> rw [mfile.read_sized, h] <;>
    simp [Nat.min_le_left]

/-- Witness for C6 at a concrete input: a 3-byte file holding
`[10, 11, 12]`, position 1, requested size 5: the returned buffer is
the 2 remaining bytes. -/
theorem mfile.read_sized_spec_witness :
    mfile.read_sized (fun _ => 1) ⟨3, fun i => i + 10⟩ 1 5 = [11, 12] ∧
    (mfile.read_sized (fun _ => 1) ⟨3, fun i => i + 10⟩ 1 5).length = 2 := by
  have h := mfile.read_sized_spec (fun _ => 1) ⟨3, fun i => i + 10⟩ 1 5
    (fun j => le_refl 1) (by decide)
  constructor
  · rw [h.1]
    rfl
  · rw [h.2.1]
    rfl

/-- C8 (round-trip): writing the byte sequence `B` positionally at
offset `o` through the saturating positional write loop and then
reading `B.length` bytes at `o` through the saturating positional read
loop returns exactly `B`, for every starting file, offset, and pair of
kernel chunk oracles that always transfer at least one byte. -/
theorem mfile.pwrite_pread_roundtrip (F : mfile.PFile) (B : List Nat) (o : Nat)
    (cw cr : Nat → Nat) (hw : ∀ j, 1 ≤ cw j) (hr : ∀ j, 1 ≤ cr j) :
    mfile.pread cr (mfile.pwrite cw F o B) o B.length = B := by
  by_cases hB : B.length = 0
  · have hnil : B = [] := List.length_eq_zero.mp hB
    subst hnil
    rw [mfile.pread, mfile.pread_go]
    simp
  · rw [mfile.pread, mfile.pwrite]
    obtain ⟨h1, h2, h3, h4⟩ := mfile.pwrite_go_spec cw hw B 0 F o
    have hlen := h4 hB
    rw [mfile.pread_go_spec cr (mfile.pwrite_go cw 0 F o B) hr B.length 0 o (by omega)]
    have hmin : min B.length ((mfile.pwrite_go cw 0 F o B).len - o) = B.length := by
      omega
    rw [hmin]
    apply List.ext_getElem
    · simp
    · intro i hi1 hi2
      have hi : i < B.length := by simpa using hi1
      rw [List.getElem_map, List.getElem_range, h3 i hi]
      exact List.getD_eq_getElem B 0 hi2

/-- Witness for C8 at a concrete input: writing `[1, 2, 3]` at offset 2
into an empty file and reading 3 bytes back at offset 2 yields
`[1, 2, 3]`. -/
theorem mfile.pwrite_pread_roundtrip_witness :
    mfile.pread (fun _ => 1)
      (mfile.pwrite (fun _ => 1) ⟨0, fun _ => 0⟩ 2 [1, 2, 3]) 2 3 = [1, 2, 3] := by
  have h := mfile.pwrite_pread_roundtrip ⟨0, fun _ => 0⟩ [1, 2, 3] 2
    (fun _ => 1) (fun _ => 1) (fun j => le_refl 1) (fun j => le_refl 1)
  simpa using h

/-- C9 counterexample: `unset` is part of the builder API
(`open_flags::unset(int)`, mfile.hpp lines 434-438) and
`open_flags::r().unset(O_CLOEXEC)` is a reachable value whose bitmask no
longer contains `O_CLOEXEC`, so the claim that the flag remains set for
every value reachable through the builder API is false. -/
theorem mfile.cloexec_unset_counterexample :
    mfile.has_flag
      (mfile.flags_unset (mfile.flags_ofMode mfile.O_RDONLY) mfile.O_CLOEXEC)
      mfile.O_CLOEXEC = false := by
  decide

/-- C9 amended: every `open_flags` constructed from a basic mode has
`O_CLOEXEC` set (the constructor ORs in `default_flags = O_CLOEXEC`),
and the flag remains set under every further `set` (hence `direct`,
`sync`, `noatime`, `tmpfile`) and under every `unset` whose mask does
not contain the `O_CLOEXEC` bit; only an explicit
`unset(O_CLOEXEC)`-style call can remove it. -/
theorem mfile.cloexec_reachable_spec (f : Nat) (h : mfile.ReachableNC f) :
    mfile.has_flag f mfile.O_CLOEXEC = true := by
  have hb := mfile.reachableNC_testBit h
  simp only [mfile.has_flag, decide_eq_true_eq]
  apply Nat.eq_of_testBit_eq
  intro i
  simp only [Nat.testBit_land]
  by_cases hi : i = 19
  · subst hi
    rw [hb, show mfile.O_CLOEXEC.testBit 19 = true from by decide]
    rfl
  · rw [show mfile.O_CLOEXEC = 2 ^ 19 from by decide, Nat.testBit_two_pow]
    have h19 : ¬ (19 = i) := fun hh => hi hh.symm
    simp [h19]

/-- Witness for C9 at a concrete input: write-create-truncate mode with
the `direct()` modifier still has `O_CLOEXEC` set. -/
theorem mfile.cloexec_reachable_spec_witness :
    mfile.has_flag
      (mfile.flags_set
        (mfile.flags_ofMode (mfile.O_WRONLY ||| mfile.O_CREAT ||| mfile.O_TRUNC))
        mfile.O_DIRECT)
      mfile.O_CLOEXEC = true :=
  mfile.cloexec_reachable_spec _
    (mfile.ReachableNC.set _ _ (mfile.ReachableNC.base _ (by decide)))
